import Mathlib

/-!
Verification development for the STILL blockchain core (chain state machine).

The Go sources are shallowly embedded: buckets of the embedded key-value
store become association lists, machine integers become `Nat` with explicit
reductions modulo `2^64` / `2^128` where the Go arithmetic wraps, fallible
operations return `Option` or `Except`.  A Go `panic` (for example a nil
pointer dereference) is modelled as a failing (`none`) result.  Components
of the repository whose sources are not available (the uint128 library, the
difficulty oracle, the reward schedule, hashing, the download-queue
primitives) are modelled from the specification and passed as parameters in
a `Ctx` record, as documented on each definition.
-/

/-! ## Basic types and machine arithmetic -/

/-- 32-byte hashes, abstracted to natural numbers. -/
abbrev Hash := Nat

/-- Account addresses, abstracted to natural numbers. -/
abbrev Addr := Nat

/-- Ed25519-style public keys, abstracted to natural numbers. -/
abbrev Pubkey := Nat

/-- The modulus of 64-bit machine integers. -/
def W64 : Nat := 2 ^ 64

/-- The modulus of 128-bit machine integers. -/
def W128 : Nat := 2 ^ 128

/-- The largest 128-bit value, `uint128.Max` in the Go sources. -/
def U128MAX : Nat := 2 ^ 128 - 1

/-- Wrapping 64-bit addition (Go `uint64` addition). -/
def add64 (a b : Nat) : Nat := (a + b) % W64

/-- Wrapping 64-bit subtraction (Go `uint64` subtraction), for `a b < 2^64`. -/
def sub64 (a b : Nat) : Nat := (a + (W64 - b % W64)) % W64

/-- Wrapping 64-bit multiplication (Go `uint64` multiplication). -/
def mul64 (a b : Nat) : Nat := (a * b) % W64

/-- Wrapping 128-bit addition (`Uint128.Add`). -/
def add128 (a b : Nat) : Nat := (a + b) % W128

/-! ## Association lists: the bucket model

Each bucket of the embedded store (`BLOCK`, `TOPO`, `STATE`, `TX`, `INTX`,
`OUTTX`) is modelled as an association list with `Get` = `lookupK`,
`Put` = `insertK` (overwrite or append) and `Delete` = `removeK`. -/

def lookupK {α β : Type} [DecidableEq α] : List (α × β) → α → Option β
  | [], _ => none
  | (k, v) :: rest, key => if k = key then some v else lookupK rest key

def insertK {α β : Type} [DecidableEq α] : List (α × β) → α → β → List (α × β)
  | [], key, val => [(key, val)]
  | (k, v) :: rest, key, val =>
    if k = key then (key, val) :: rest else (k, v) :: insertK rest key val

def removeK {α β : Type} [DecidableEq α] : List (α × β) → α → List (α × β)
  | [], _ => []
  | (k, v) :: rest, key =>
    if k = key then removeK rest key else (k, v) :: removeK rest key

theorem lookupK_insertK_self {α β : Type} [DecidableEq α]
    (l : List (α × β)) (k : α) (v : β) : lookupK (insertK l k v) k = some v := by
  induction l with
  | nil => simp [insertK, lookupK]
  | cons hd tl ih =>
    obtain ⟨k', v'⟩ := hd
    by_cases h : k' = k
    · simp [insertK, h, lookupK]
    · simp [insertK, h, lookupK, ih]

theorem mem_insertK {α β : Type} [DecidableEq α]
    (l : List (α × β)) (k : α) (v : β) (p : α × β) (hp : p ∈ insertK l k v) :
    p ∈ l ∨ p = (k, v) := by
  induction l with
  | nil => simp [insertK] at hp; simp [hp]
  | cons hd tl ih =>
    obtain ⟨k', v'⟩ := hd
    by_cases h : k' = k
    · simp [insertK, h] at hp
      rcases hp with hp | hp
      · right; simp [hp]
      · left; simp [hp]
    · simp [insertK, h] at hp
      rcases hp with hp | hp
      · left; simp [hp]
      · rcases ih hp with h' | h'
        · left; simp [h']
        · right; exact h'

theorem mem_removeK {α β : Type} [DecidableEq α]
    (l : List (α × β)) (k : α) (p : α × β) (hp : p ∈ removeK l k) : p ∈ l := by
  induction l with
  | nil => simp [removeK] at hp
  | cons hd tl ih =>
    obtain ⟨k', v'⟩ := hd
    by_cases h : k' = k
    · simp [removeK, h] at hp
      exact List.mem_cons_of_mem _ (ih hp)
    · simp [removeK, h] at hp
      rcases hp with hp | hp
      · simp [hp]
      · exact List.mem_cons_of_mem _ (ih hp)

/-! ## Data model -/

/-- Per-address account state (`State` in the Go sources): balance,
last outgoing nonce, last incoming counter (all `uint64`). -/
structure AccState where
  balance : Nat
  lastNonce : Nat
  lastIncoming : Nat
deriving DecidableEq, Repr

/-- A transaction (`transaction.Transaction`). -/
structure Transaction where
  sender : Pubkey
  recipient : Addr
  signature : Nat
  nonce : Nat
  amount : Nat
  fee : Nat
  subaddr : Nat
deriving DecidableEq, Repr

/-- A merge-mined peer-chain identifier (`block.HashingID`). -/
structure HashingID where
  networkID : Nat
  hash : Hash
deriving DecidableEq, Repr

/-- Modelled from the spec: a `Commitment` binds a block to the multi-chain
PoW puzzle; the Go definition (`commitment.go`) is not among the available
sources.  Only the fields used by `checkBlock` are modelled explicitly: the
commitment's own ancestor list and timestamp; the remaining data
(base hash, hashing id, blob payload) is collapsed into `baseData`.
`Commitment.Equals` is structural equality. -/
structure Commitment where
  ancestors : List Hash
  timestamp : Nat
  baseData : Nat
deriving DecidableEq, Repr

/-- A block (`block.Block` with its inlined `BlockHeader`). -/
structure Block where
  version : Nat
  height : Nat
  timestamp : Nat
  nonce : Nat
  nonceExtra : Nat
  otherChains : List HashingID
  recipient : Addr
  ancestors : List Hash
  sideBlocks : List Commitment
  difficulty : Nat
  cumulativeDiff : Nat
  transactions : List Hash
deriving DecidableEq, Repr

/-- `BlockHeader.PrevHash`: the first entry of the ancestors array. -/
def Block.prevHash (b : Block) : Hash := b.ancestors.headD 0

/-- An alt-chain tip (`AltchainTip`). -/
structure AltchainTip where
  hash : Hash
  height : Nat
  cumulativeDiff : Nat
deriving DecidableEq, Repr

/-- An orphan record (`Orphan`): hash, parent hash, expiry (unix seconds). -/
structure Orphan where
  hash : Hash
  prevHash : Hash
  expires : Nat
deriving DecidableEq, Repr

/-- Chain statistics (`Stats`), stored under the `INFO` bucket. -/
structure Stats where
  topHash : Hash
  topHeight : Nat
  cumulativeDiff : Nat
  tips : List (Hash × AltchainTip)
  orphans : List (Hash × Orphan)
deriving DecidableEq, Repr

/-- Modelled from the spec: an entry of the block download queue
(`QueuedBlock`), keyed by (height, hash); the queue sources are not among
the available files.  The `Requested`/`Downloading`/`Downloaded` states are
collapsed into a `downloaded` flag, which no claim depends on. -/
structure QueuedBlock where
  height : Nat
  hash : Hash
  downloaded : Bool
deriving DecidableEq, Repr

/-- The mutable chain state: every bucket of the store plus the in-memory
download queue.  `stats` models the serialized `Stats` under `INFO`. -/
structure ChainState where
  blocks : List (Hash × Block)
  topo : List (Nat × Hash)
  state : List (Addr × AccState)
  txs : List (Hash × Transaction)
  intx : List ((Addr × Nat) × Hash)
  outtx : List ((Addr × Nat) × Hash)
  txHeight : List (Hash × Nat)
  mempool : List Hash
  queue : List QueuedBlock
  stats : Stats
deriving DecidableEq, Repr

/-- Modelled from the spec: a mining blob (`MiningBlob`), the canonicalized
multi-chain view consumed by the PoW oracle; its Go definition is not among
the available sources.  Only the fields read by `setMiningBlob` are kept. -/
structure MiningBlob where
  timestamp : Nat
  nonce : Nat
  nonceExtra : Nat
  chains : List HashingID
deriving DecidableEq, Repr

/-- Modelled from the spec: the external oracles of the chain engine whose
sources are not available — address derivation from a public key, the
emission schedule `reward(height)`, the governance fee percent
(`BLOCK_REWARD_FEE_PERCENT`), the genesis address, block hashing
(BLAKE3 of the canonical serialization), the retarget oracle
`GetNextDifficulty` and the commitment derivation `Block.Commitment()`. -/
structure Ctx where
  fromPubKey : Pubkey → Addr
  reward : Nat → Nat
  feePercent : Nat
  genesisAddr : Addr
  hashOf : Block → Hash
  nextDiff : List (Hash × Block) → Block → Option Nat
  commitmentOf : Block → Commitment

/-! ## C6: proof-of-work acceptance test (`block.ValidPowValue`) -/

/-- `ValidPowValue(val, diff)` from `block.go`: accept iff
`val ≤ uint128.Max / diff` with truncating 128-bit division. -/
def validPowValue (val diff : Nat) : Bool := decide (val ≤ U128MAX / diff)

/-- C6: for 128-bit `val` and nonzero 128-bit `diff`, the implemented test
`val ≤ (2^128 − 1) / diff` holds iff `val · diff ≤ 2^128 − 1` over the
unbounded integers — the code's comparison is exactly the spec's PoW
validity criterion. -/
theorem validPowValue_iff_unbounded (val diff : Nat)
    (hval : val < W128) (hdiff : diff < W128) (hpos : 0 < diff) :
    validPowValue val diff = true ↔ val * diff ≤ 2 ^ 128 - 1 := by
  rw [validPowValue, decide_eq_true_iff, U128MAX]
  exact Nat.le_div_iff_mul_le hpos

/-- Witness for C6 at `val = 5`, `diff = 3`. -/
theorem validPowValue_iff_unbounded_witness :
    validPowValue 5 3 = true ↔ 5 * 3 ≤ 2 ^ 128 - 1 :=
  validPowValue_iff_unbounded 5 3 (by norm_num [W128]) (by norm_num [W128]) (by norm_num)

/-! ## C9: the download-queue filler (`fillQueue`) -/

/-- Modelled from the spec: `set_block(qb, force)` — insert keyed by
(height, hash); upgrade in place when `force`; no-op if present and
`force = false`. -/
def setBlock (qb : QueuedBlock) (fo : Bool) (q : List QueuedBlock) : List QueuedBlock :=
  if q.any (fun e => e.height = qb.height ∧ e.hash = qb.hash) then
    if fo then q.map (fun e => if e.height = qb.height ∧ e.hash = qb.hash then qb else e)
    else q
  else q ++ [qb]

/-- The inner loop of `fillQueue`: `for i := topHeight+1; i <= syncHeight; i++`
with the attempt counter `n`, breaking once `n > PARALLEL_BLOCKS_DOWNLOAD`.
`cnt` is the number of remaining loop iterations (`syncHeight − i + 1`). -/
def fillLoop (pLimit : Nat) : Nat → Nat → Nat → List QueuedBlock → List QueuedBlock
  | 0, _, _, q => q
  | cnt + 1, i, n, q =>
    if n > pLimit then q
    else fillLoop pLimit cnt (i + 1) (n + 1) (setBlock ⟨i, 0, false⟩ false q)

/-- `fillQueue` from the chain engine: enqueue consecutive heights
`topHeight+1 … syncHeight` while below the parallel-download limit.
`pLimit` stands for the constant `PARALLEL_BLOCKS_DOWNLOAD`. -/
def fillQueue (pLimit syncHeight topHeight : Nat) (q : List QueuedBlock) : List QueuedBlock :=
  if q.length < pLimit then
    if syncHeight > topHeight then
      fillLoop pLimit (syncHeight - topHeight) (topHeight + 1) q.length q
    else q
  else q

theorem setBlock_length_le (qb : QueuedBlock) (fo : Bool) (q : List QueuedBlock) :
    (setBlock qb fo q).length ≤ q.length + 1 := by
  unfold setBlock
  split
  · split <;> simp
  · simp

theorem fillLoop_length_le (pLimit : Nat) (cnt : Nat) :
    ∀ (i n : Nat) (q : List QueuedBlock), q.length ≤ n →
      (fillLoop pLimit cnt i n q).length ≤ max n (pLimit + 1) := by
  induction cnt with
  | zero =>
    intro i n q h
    simpa [fillLoop] using le_max_of_le_left h
  | succ c ih =>
    intro i n q h
    unfold fillLoop
    by_cases hn : n > pLimit
    · simpa [hn] using le_max_of_le_left h
    · simp only [hn, if_false]
      have hq : (setBlock ⟨i, 0, false⟩ false q).length ≤ n + 1 :=
        le_trans (setBlock_length_le _ _ _) (by omega)
      have := ih (i + 1) (n + 1) (setBlock ⟨i, 0, false⟩ false q) hq
      have hmax : max (n + 1) (pLimit + 1) = pLimit + 1 := by omega
      rw [hmax] at this
      exact le_max_of_le_right this

/-- C9 counterexample: with `PARALLEL_BLOCKS_DOWNLOAD = 2`, an empty queue,
top height 0 and sync height 10, `fillQueue` leaves 3 entries — the queue
length exceeds the limit, refuting the claimed bound. -/
theorem fillQueue_exceeds_limit :
    (fillQueue 2 10 0 []).length = 3 ∧ ¬ (fillQueue 2 10 0 []).length ≤ 2 := by
  constructor <;> decide

/-- C9 amended: the loop only breaks once the attempt counter strictly
exceeds the limit, so the queue length after `fillQueue` is bounded by
`max (initial length) (PARALLEL_BLOCKS_DOWNLOAD + 1)` — one more than the
claimed bound, which the counterexample shows is reached. -/
theorem fillQueue_length_bound (pLimit syncHeight topHeight : Nat) (q : List QueuedBlock) :
    (fillQueue pLimit syncHeight topHeight q).length ≤ max q.length (pLimit + 1) := by
  unfold fillQueue
  by_cases h1 : q.length < pLimit
  · by_cases h2 : syncHeight > topHeight
    · simp only [h1, h2, if_true]
      have := fillLoop_length_le pLimit (syncHeight - topHeight) (topHeight + 1)
        q.length q le_rfl
      exact le_trans this (by omega)
    · simp [h1, h2]
  · simp [h1]

/-! ## C10: block serialization with zero difficulty -/

/-- Unsigned LEB128 encoding (`AddUvarint`). -/
def uvarint (n : Nat) : List Nat :=
  if h : n < 128 then [n]
  else (n % 128 + 128) :: uvarint (n / 128)
decreasing_by
  exact Nat.div_lt_self (by omega) (by omega)

/-- Little-endian fixed-width byte encoding of `n` over `k` bytes. -/
def bytesLE (k n : Nat) : List Nat := (List.range k).map fun i => n / 256 ^ i % 256

/-- Strip trailing zero bytes, as the difficulty encoder does. -/
def trimTrailingZeros (l : List Nat) : List Nat := (l.reverse.dropWhile (· = 0)).reverse

/-- A uvarint-length-prefixed byte slice (`AddByteSlice`). -/
def byteSlice (l : List Nat) : List Nat := uvarint l.length ++ l

/-- Serialization of a `HashingID` inside a header (`AddUint64` + 32 bytes). -/
def serializeHashingID (h : HashingID) : List Nat :=
  bytesLE 8 h.networkID ++ bytesLE 32 h.hash

/-- `BlockHeader.Serialize`.  `cser` abstracts `Commitment.Serialize`,
whose source is not available. -/
def headerSerialize (cser : Commitment → List Nat) (b : Block) : List Nat :=
  [b.version % 256] ++ uvarint b.height ++ uvarint b.timestamp ++ bytesLE 4 b.nonce
    ++ bytesLE 16 b.nonceExtra ++ bytesLE 32 b.recipient
    ++ (b.ancestors.map (bytesLE 32)).flatten
    ++ uvarint b.otherChains.length ++ (b.otherChains.map serializeHashingID).flatten
    ++ uvarint b.sideBlocks.length ++ (b.sideBlocks.map cser).flatten

/-- `Block.Serialize`: header, trimmed little-endian difficulty and
cumulative difficulty, then the transaction hashes.  When the difficulty is
zero the function returns `nil` (modelled as `[]`) after having built the
header. -/
def blockSerialize (cser : Commitment → List Nat) (b : Block) : List Nat :=
  let hdr := headerSerialize cser b
  if b.difficulty = 0 then []
  else
    hdr ++ byteSlice (trimTrailingZeros (bytesLE 16 b.difficulty))
      ++ byteSlice (trimTrailingZeros (bytesLE 16 b.cumulativeDiff))
      ++ uvarint b.transactions.length ++ (b.transactions.map (bytesLE 32)).flatten

/-- `Block.Hash`: BLAKE3-256 of the serialization; `blake3` abstracts the
hash oracle. -/
def blockHash (blake3 : List Nat → Hash) (cser : Commitment → List Nat) (b : Block) : Hash :=
  blake3 (blockSerialize cser b)

/-- C10: a block whose difficulty is zero serializes to `nil` regardless of
every other field, and its hash is therefore the BLAKE3 hash of the empty
byte string. -/
theorem blockSerialize_zero_difficulty (blake3 : List Nat → Hash)
    (cser : Commitment → List Nat) (b : Block) (h : b.difficulty = 0) :
    blockSerialize cser b = [] ∧ blockHash blake3 cser b = blake3 [] := by
  constructor
  · simp [blockSerialize, h]
  · simp [blockHash, blockSerialize, h]

/-- A concrete block with zero difficulty but nonzero header, cumulative
difficulty and transaction list. -/
def blC10 : Block :=
  ⟨1, 5, 6, 7, 8, [⟨2, 3⟩], 9, [4], [⟨[1], 2, 3⟩], 0, 9, [3]⟩

/-- Witness for C10 at a concrete block. -/
theorem blockSerialize_zero_difficulty_witness :
    blockSerialize (fun _ => [1]) blC10 = [] ∧
      blockHash (fun l => l.length) (fun _ => [1]) blC10 = (fun l : List Nat => l.length) [] :=
  blockSerialize_zero_difficulty (fun l => l.length) (fun _ => [1]) blC10 rfl

/-! ## `checkBlock`: consensus checks (C2, C3, C4) -/

/-- Error kinds of `checkBlock`, one per `return` site in the Go code. -/
inductive ChkErr where
  | nextDiffFailed
  | badDiff
  | badHeight
  | badTimestamp
  | subsequentInvalid
  | commonNotFound
  | sideIncluded1
  | sideIncluded2
  | sideIncluded3
  | sideIncluded4
  | ancestorMissing
  | badCumDiff
deriving DecidableEq, Repr

/-- The inner scan of the side-ancestor alignment: iterate every position
`vid` of the block's ancestor array and keep overwriting the accumulator
with `vid − k` whenever `vid ≥ k` and the entry equals `anc` — so the LAST
match wins. -/
def scanLastMatch (anc : Hash) (k : Nat) : List Hash → Nat → Option Nat → Option Nat
  | [], _, acc => acc
  | v :: rest, vid, acc =>
    scanLastMatch anc k rest (vid + 1) (if k ≤ vid ∧ v = anc then some (vid - k) else acc)

/-- The offset `heightDiff` computed by `checkBlock` for the `k`-th side
ancestor `anc`: the largest `vid − k` with `vid ≥ k` and
`blAnc[vid] = anc`, if any. -/
def lastMatchFrom (blAnc : List Hash) (k : Nat) (anc : Hash) : Option Nat :=
  scanLastMatch anc k blAnc 0 none

/-- After an alignment offset `d` is fixed, every subsequent side ancestor
must equal the block ancestor at `k + d`; positions past the end of the
block's array stop the loop (accepted). -/
def subseqCheck (blAnc : List Hash) (d : Nat) : List Hash → Nat → Except ChkErr Unit
  | [], _ => .ok ()
  | anc :: rest, k =>
    if blAnc.length ≤ k + d then .ok ()
    else if blAnc.get? (k + d) = some anc then subseqCheck blAnc d rest (k + 1)
    else .error .subsequentInvalid

/-- The side-ancestor loop of `checkBlock`: while no common ancestor is
found, scan the whole block ancestor array for the current entry; once
found, verify the subsequent entries at the same offset. -/
def findCommonFrom (blAnc : List Hash) : List Hash → Nat → Except ChkErr Unit
  | [], _ => .error .commonNotFound
  | anc :: rest, k =>
    match lastMatchFrom blAnc k anc with
    | none => findCommonFrom blAnc rest (k + 1)
    | some d => subseqCheck blAnc d rest (k + 1)

/-- The side-ancestor alignment rule of `checkBlock` for one side block. -/
def sideAncestorsCheck (blAnc sideAnc : List Hash) : Except ChkErr Unit :=
  findCommonFrom blAnc sideAnc 0

/-- The alignment rule as the claim words it: the SMALLEST offset `d` such
that some `side.ancestors[k]` equals `block.ancestors[k+d]` is selected
(with the first such `k`), and every subsequent entry must match at `d`. -/
def claimSmallestOffsetAlign (blAnc sideAnc : List Hash) : Bool :=
  let dMatch := fun d : Nat =>
    (List.range sideAnc.length).any fun k => sideAnc.get? k == blAnc.get? (k + d)
  match (List.range blAnc.length).filter dMatch with
  | [] => false
  | d :: _ =>
    match (List.range sideAnc.length).filter
        (fun k => sideAnc.get? k == blAnc.get? (k + d)) with
    | [] => false
    | k :: _ =>
      (List.range sideAnc.length).all fun j =>
        decide (j ≤ k) || sideAnc.get? j == blAnc.get? (j + d)

/-- The side-block dedup walk over `bl.Ancestors[1:]`: each ancestor block
is fetched and must not contain the side block as its own commitment or
among its side blocks; the walk stops at a genesis ancestor. -/
def ancestorDedup (commitmentOf : Block → Commitment) (blocks : List (Hash × Block))
    (side : Commitment) : List Hash → Except ChkErr Unit
  | [] => .ok ()
  | anc :: rest =>
    match lookupK blocks anc with
    | none => .error .ancestorMissing
    | some ancBl =>
      if side = commitmentOf ancBl then .error .sideIncluded3
      else if side ∈ ancBl.sideBlocks then .error .sideIncluded4
      else if ancBl.height = 0 then .ok ()
      else ancestorDedup commitmentOf blocks side rest

/-- All `checkBlock` conditions for one cited side block: ancestor
alignment, then dedup against the parent's commitment, the parent's side
blocks, and (when the parent is not genesis) the remaining ancestors. -/
def sideBlockCheck (commitmentOf : Block → Commitment) (blocks : List (Hash × Block))
    (bl prevBl : Block) (side : Commitment) : Except ChkErr Unit :=
  match sideAncestorsCheck bl.ancestors side.ancestors with
  | .error e => .error e
  | .ok () =>
    if side = commitmentOf prevBl then .error .sideIncluded1
    else if side ∈ prevBl.sideBlocks then .error .sideIncluded2
    else if 0 < prevBl.height then ancestorDedup commitmentOf blocks side (bl.ancestors.drop 1)
    else .ok ()

/-- The side-block loop of `checkBlock`, in list order. -/
def sideBlocksCheck (commitmentOf : Block → Commitment) (blocks : List (Hash × Block))
    (bl prevBl : Block) : List Commitment → Except ChkErr Unit
  | [] => .ok ()
  | side :: rest =>
    match sideBlockCheck commitmentOf blocks bl prevBl side with
    | .error e => .error e
    | .ok () => sideBlocksCheck commitmentOf blocks bl prevBl rest

/-- The side-block credit
`bl.Difficulty.Mul64(2 * len(bl.SideBlocks)).Div64(3)`: the factor
`2·|side_blocks|` is a wrapping `uint64` product, the multiplication by the
difficulty wraps modulo `2^128`, and the division by 3 truncates. -/
def sideCredit (bl : Block) : Nat :=
  bl.difficulty * (2 * bl.sideBlocks.length % W64) % W128 / 3

/-- The expected cumulative difficulty:
`prevBl.CumulativeDiff.Add(bl.Difficulty).Add(sideDiff)`. -/
def cumDiffFormula (bl prevBl : Block) : Nat :=
  add128 (add128 prevBl.cumulativeDiff bl.difficulty) (sideCredit bl)

/-- `checkBlock` from the chain engine: difficulty against the retarget
oracle, height, timestamp, side-block rules, cumulative difficulty. -/
def checkBlock (ctx : Ctx) (blocks : List (Hash × Block)) (bl prevBl : Block) :
    Except ChkErr Unit :=
  match ctx.nextDiff blocks prevBl with
  | none => .error .nextDiffFailed
  | some expectDiff =>
    if bl.difficulty ≠ expectDiff then .error .badDiff
    else if bl.height ≠ (prevBl.height + 1) % W64 then .error .badHeight
    else if prevBl.timestamp > bl.timestamp then .error .badTimestamp
    else
      match sideBlocksCheck ctx.commitmentOf blocks bl prevBl bl.sideBlocks with
      | .error e => .error e
      | .ok () =>
        if bl.cumulativeDiff ≠ cumDiffFormula bl prevBl then .error .badCumDiff
        else .ok ()

/-- C2 counterexample: with `block.ancestors = [1, 3, 1, 2]` and
`side.ancestors = [1, 2, 4, 5]`, the code scans the whole array and keeps
the LAST match for the first entry (offset 2, not the smallest offset 0),
then `[2]` aligns at offset 2 and the remaining entries run past the end —
the block is accepted; the claimed smallest-offset rule picks `d = 0`,
where the second entry mismatches, and rejects. -/
theorem sideAncestors_smallest_offset_refuted :
    sideAncestorsCheck [1, 3, 1, 2] [1, 2, 4, 5] = .ok () ∧
      claimSmallestOffsetAlign [1, 3, 1, 2] [1, 2, 4, 5] = false := by
  constructor
  · rfl
  · rfl

/-- C3: under the other admission checks (correct difficulty, height,
timestamp, valid side blocks) and absent 64/128-bit overflow, `checkBlock`
accepts the block's cumulative difficulty exactly when it equals
`parent.cumulative_diff + difficulty + ⌊difficulty · (2·|side_blocks|) / 3⌋`
computed over the unbounded integers with the multiplication performed
before the truncating division by 3. -/
theorem checkBlock_cumulative_diff_iff (ctx : Ctx) (blocks : List (Hash × Block))
    (bl prevBl : Block)
    (h1 : ctx.nextDiff blocks prevBl = some bl.difficulty)
    (h2 : bl.height = (prevBl.height + 1) % W64)
    (h3 : prevBl.timestamp ≤ bl.timestamp)
    (h4 : sideBlocksCheck ctx.commitmentOf blocks bl prevBl bl.sideBlocks = .ok ())
    (h5 : 2 * bl.sideBlocks.length < W64)
    (h6 : bl.difficulty * (2 * bl.sideBlocks.length) < W128)
    (h7 : prevBl.cumulativeDiff + bl.difficulty
        + bl.difficulty * (2 * bl.sideBlocks.length) / 3 < W128) :
    checkBlock ctx blocks bl prevBl = .ok () ↔
      bl.cumulativeDiff = prevBl.cumulativeDiff + bl.difficulty
        + bl.difficulty * (2 * bl.sideBlocks.length) / 3 := by
  have hcred : sideCredit bl = bl.difficulty * (2 * bl.sideBlocks.length) / 3 := by
    rw [sideCredit, Nat.mod_eq_of_lt h5, Nat.mod_eq_of_lt h6]
  have hab : prevBl.cumulativeDiff + bl.difficulty < W128 :=
    Nat.lt_of_le_of_lt (Nat.le_add_right _ _) h7
  have hform : cumDiffFormula bl prevBl = prevBl.cumulativeDiff + bl.difficulty
      + bl.difficulty * (2 * bl.sideBlocks.length) / 3 := by
    rw [cumDiffFormula, hcred, add128, add128, Nat.mod_eq_of_lt hab, Nat.mod_eq_of_lt h7]
  rw [checkBlock, h1]
  simp [h2, Nat.not_lt.mpr h3, h4, hform]

/-- A concrete parent block for the C3 witness. -/
def prevC3 : Block := ⟨0, 0, 50, 0, 0, [], 0, [], [], 1, 1000, []⟩

/-- A concrete block citing two side blocks for the C3 witness: credit is
`⌊300 · 4 / 3⌋ = 400`, so the cumulative difficulty must be
`1000 + 300 + 400 = 1700`. -/
def blC3 : Block :=
  ⟨0, 1, 60, 0, 0, [], 0, [1, 2], [⟨[1], 0, 1⟩, ⟨[2], 0, 2⟩], 300, 1700, []⟩

/-- A concrete oracle context for the C3 witness. -/
def ctxC3 : Ctx :=
  ⟨id, fun _ => 0, 10, 0, fun _ => 0, fun _ _ => some 300, fun _ => ⟨[0], 0, 0⟩⟩

/-- Witness for C3 at a concrete two-side-block instance. -/
theorem checkBlock_cumulative_diff_iff_witness :
    sideBlocksCheck ctxC3.commitmentOf [] blC3 prevC3 blC3.sideBlocks = .ok () ∧
      (checkBlock ctxC3 [] blC3 prevC3 = .ok () ↔
        blC3.cumulativeDiff = prevC3.cumulativeDiff + blC3.difficulty
          + blC3.difficulty * (2 * blC3.sideBlocks.length) / 3) :=
  ⟨rfl, checkBlock_cumulative_diff_iff ctxC3 [] blC3 prevC3 rfl rfl (by decide) rfl
    (by decide) (by decide) (by decide)⟩

/-- A concrete parent block for C4, with timestamp 1000. -/
def prevC4 : Block := ⟨0, 0, 1000, 0, 0, [], 0, [], [], 1, 1, []⟩

/-- A concrete child block for C4 whose timestamp EQUALS the parent's. -/
def blC4 : Block := ⟨0, 1, 1000, 0, 0, [], 0, [], [], 7, 8, []⟩

/-- A concrete oracle context for C4. -/
def ctxC4 : Ctx :=
  ⟨id, fun _ => 0, 10, 0, fun _ => 0, fun _ _ => some 7, fun _ => ⟨[0], 0, 0⟩⟩

/-- C4: `checkBlock` only rejects a timestamp strictly OLDER than the
parent's (`prevBl.Timestamp > bl.Timestamp`), so a block whose timestamp
equals its parent's passes every check and is accepted — contradicting the
code's own comment ("strictly greater than previous block timestamp") and
the claim. -/
theorem checkBlock_equal_timestamp_accepted :
    checkBlock ctxC4 [] blC4 prevC4 = .ok () ∧ blC4.timestamp = prevC4.timestamp :=
  ⟨rfl, rfl⟩

/-! ## C2: the alignment rule implemented by `checkBlock` -/

theorem scanLastMatch_none (anc : Hash) (k : Nat) :
    ∀ (l : List Hash) (vid : Nat) (acc : Option Nat),
      scanLastMatch anc k l vid acc = none →
      acc = none ∧ ∀ j, j < l.length → l.get? j = some anc → vid + j < k := by
  intro l
  induction l with
  | nil =>
    intro vid acc h
    refine ⟨h, ?_⟩
    intro j hj
    simp at hj
  | cons v rest ih =>
    intro vid acc h
    rw [scanLastMatch] at h
    obtain ⟨hacc', hrest⟩ := ih (vid + 1) _ h
    by_cases hc : k ≤ vid ∧ v = anc
    · simp [hc] at hacc'
    · simp only [hc, if_false] at hacc'
      refine ⟨hacc', ?_⟩
      intro j hj hget
      match j with
      | 0 =>
        have hv : v = anc := by simpa using hget
        have : ¬ k ≤ vid := fun hk => hc ⟨hk, hv⟩
        omega
      | j'' + 1 =>
        have := hrest j'' (by simpa using hj) (by simpa using hget)
        omega

theorem scanLastMatch_some (anc : Hash) (k : Nat) :
    ∀ (l : List Hash) (vid : Nat) (acc : Option Nat) (d : Nat),
      scanLastMatch anc k l vid acc = some d →
      (acc = some d ∧ ∀ j, j < l.length → l.get? j = some anc → vid + j < k) ∨
      (∃ j, j < l.length ∧ k ≤ vid + j ∧ l.get? j = some anc ∧ d = vid + j - k ∧
        ∀ j', j < j' → j' < l.length → l.get? j' ≠ some anc) := by
  intro l
  induction l with
  | nil =>
    intro vid acc d h
    left
    refine ⟨h, ?_⟩
    intro j hj
    simp at hj
  | cons v rest ih =>
    intro vid acc d h
    rw [scanLastMatch] at h
    rcases ih (vid + 1) _ d h with ⟨hacc', hno⟩ | ⟨j, hjlen, hk, hget, hd, hlater⟩
    · by_cases hc : k ≤ vid ∧ v = anc
      · simp only [hc, if_true] at hacc'
        right
        refine ⟨0, by simp, by simpa using hc.1, by simpa using hc.2, ?_, ?_⟩
        · have : d = vid - k := by
            have := hacc'
            simp at this
            omega
          omega
        · intro j' hj0 hjlen' hget'
          match j' with
          | j'' + 1 =>
            have := hno j'' (by simpa using hjlen') (by simpa using hget')
            have := hc.1
            omega
      · simp only [hc, if_false] at hacc'
        left
        refine ⟨hacc', ?_⟩
        intro j hj hget
        match j with
        | 0 =>
          have hv : v = anc := by simpa using hget
          have : ¬ k ≤ vid := fun hk => hc ⟨hk, hv⟩
          omega
        | j'' + 1 =>
          have := hno j'' (by simpa using hj) (by simpa using hget)
          omega
    · right
      refine ⟨j + 1, by simpa using hjlen, by omega, by simpa using hget, by omega, ?_⟩
      intro j' hj1 hj2 hget'
      match j' with
      | j'' + 1 =>
        exact hlater j'' (by omega) (by simpa using hj2) (by simpa using hget')

/-- The offset, when present, points at a matching position and is the
largest matching offset at the given side index. -/
theorem lastMatchFrom_some (blAnc : List Hash) (k anc d : Nat)
    (h : lastMatchFrom blAnc k anc = some d) :
    k + d < blAnc.length ∧ blAnc.get? (k + d) = some anc ∧
      ∀ u, k ≤ u → u < blAnc.length → blAnc.get? u = some anc → u ≤ k + d := by
  rcases scanLastMatch_some anc k blAnc 0 none d h with ⟨h1, -⟩ | ⟨j, hjlen, hk, hget, hd, hlater⟩
  · exact absurd h1 (by simp)
  · have hj : j = k + d := by omega
    subst hj
    refine ⟨hjlen, hget, ?_⟩
    intro u hku hulen huget
    by_contra hgt
    push_neg at hgt
    exact hlater u (by omega) hulen huget

/-- When no offset is found for a side index, no position of the block's
ancestor array at or past that index matches it. -/
theorem lastMatchFrom_none (blAnc : List Hash) (k : Nat) (anc : Hash)
    (h : lastMatchFrom blAnc k anc = none) :
    ∀ u, k ≤ u → u < blAnc.length → blAnc.get? u ≠ some anc := by
  obtain ⟨-, h2⟩ := scanLastMatch_none anc k blAnc 0 none h
  intro u hku hulen hget
  have := h2 u hulen hget
  omega

theorem subseqCheck_ok_iff (blAnc : List Hash) (d : Nat) :
    ∀ (rest : List Hash) (i : Nat),
      subseqCheck blAnc d rest i = .ok () ↔
        ∀ j, j < rest.length → i + j + d < blAnc.length →
          blAnc.get? (i + j + d) = rest.get? j := by
  intro rest
  induction rest with
  | nil =>
    intro i
    simp [subseqCheck]
  | cons anc rest ih =>
    intro i
    rw [subseqCheck]
    by_cases hle : blAnc.length ≤ i + d
    · simp only [hle, if_true]
      constructor
      · intro _ j hj hlt
        exact absurd hlt (by omega)
      · intro _
        trivial
    · simp only [hle, if_false]
      by_cases hget : blAnc.get? (i + d) = some anc
      · simp only [hget, if_true]
        rw [ih (i + 1)]
        constructor
        · intro h j hj hlt
          match j with
          | 0 => simpa using hget
          | j'' + 1 =>
            have hh := h j'' (by simpa using hj) (by omega)
            rw [List.get?_cons_succ]
            have hidx : i + (j'' + 1) + d = i + 1 + j'' + d := by omega
            rw [hidx]
            exact hh
        · intro h j hj hlt
          have hh := h (j + 1) (by simp; omega) (by omega)
          rw [List.get?_cons_succ] at hh
          have hidx : i + (j + 1) + d = i + 1 + j + d := by omega
          rw [hidx] at hh
          exact hh
      · simp only [hget, if_false]
        constructor
        · intro h
          simp at h
        · intro h
          exfalso
          apply hget
          have := h 0 (by simp) (by omega)
          simpa using this

theorem findCommonFrom_ok_iff (blAnc : List Hash) :
    ∀ (rest : List Hash) (i : Nat),
      findCommonFrom blAnc rest i = .ok () ↔
        ∃ j d, j < rest.length ∧
          (∀ j' u, j' < j →
            ¬ (i + j' ≤ u ∧ u < blAnc.length ∧ blAnc.get? u = rest.get? j')) ∧
          (i + j + d < blAnc.length ∧ blAnc.get? (i + j + d) = rest.get? j) ∧
          (∀ u, i + j ≤ u → u < blAnc.length → blAnc.get? u = rest.get? j →
            u ≤ i + j + d) ∧
          (∀ j', j < j' → j' < rest.length → i + j' + d < blAnc.length →
            blAnc.get? (i + j' + d) = rest.get? j') := by
  intro rest
  induction rest with
  | nil =>
    intro i
    constructor
    · intro h
      simp [findCommonFrom] at h
    · rintro ⟨j, d, hj, -⟩
      simp at hj
  | cons anc rest ih =>
    intro i
    rw [findCommonFrom]
    cases hm : lastMatchFrom blAnc i anc with
    | none =>
      have hnom := lastMatchFrom_none blAnc i anc hm
      rw [ih (i + 1)]
      constructor
      · rintro ⟨j, d, hjlen, hfirst, ⟨hmlt, hmget⟩, hmax, hsub⟩
        refine ⟨j + 1, d, by simp; omega, ?_, ⟨by omega, ?_⟩, ?_, ?_⟩
        · intro j' u hj' hcon
          obtain ⟨hc1, hc2, hc3⟩ := hcon
          match j' with
          | 0 =>
            exact hnom u (by omega) hc2 (by simpa using hc3)
          | j'' + 1 =>
            rw [List.get?_cons_succ] at hc3
            exact hfirst j'' u (by omega) ⟨by omega, hc2, hc3⟩
        · have hidx : i + (j + 1) + d = i + 1 + j + d := by omega
          rw [hidx, List.get?_cons_succ]
          exact hmget
        · intro u h1 h2 h3
          rw [List.get?_cons_succ] at h3
          have := hmax u (by omega) h2 h3
          omega
        · intro j' hj1 hj2 hj3
          match j' with
          | 0 => exact absurd hj1 (by omega)
          | j'' + 1 =>
            rw [List.get?_cons_succ]
            have hidx : i + (j'' + 1) + d = i + 1 + j'' + d := by omega
            rw [hidx]
            exact hsub j'' (by omega) (by simp at hj2; omega) (by omega)
      · rintro ⟨j, d, hjlen, hfirst, ⟨hmlt, hmget⟩, hmax, hsub⟩
        have hj1 : 0 < j := by
          rcases Nat.eq_zero_or_pos j with h0 | h0
          · subst h0
            have hg : blAnc.get? (i + 0 + d) = some anc := by simpa using hmget
            exact absurd hg (hnom (i + 0 + d) (by omega) hmlt)
          · exact h0
        obtain ⟨j'', rfl⟩ : ∃ j'', j = j'' + 1 := ⟨j - 1, by omega⟩
        refine ⟨j'', d, by simp at hjlen; omega, ?_, ⟨by omega, ?_⟩, ?_, ?_⟩
        · intro j' u hj' hcon
          obtain ⟨hc1, hc2, hc3⟩ := hcon
          refine hfirst (j' + 1) u (by omega) ⟨by omega, hc2, ?_⟩
          rw [List.get?_cons_succ]
          exact hc3
        · have hidx : i + 1 + j'' + d = i + (j'' + 1) + d := by omega
          rw [hidx]
          have hmget' := hmget
          rw [List.get?_cons_succ] at hmget'
          exact hmget'
        · intro u h1 h2 h3
          have := hmax u (by omega) h2 (by rw [List.get?_cons_succ]; exact h3)
          omega
        · intro j' ha hb hc
          have h := hsub (j' + 1) (by omega) (by simp; omega) (by omega)
          rw [List.get?_cons_succ] at h
          have hidx : i + (j' + 1) + d = i + 1 + j' + d := by omega
          rw [hidx] at h
          exact h
    | some d0 =>
      obtain ⟨hlt0, hget0, hmax0⟩ := lastMatchFrom_some blAnc i anc d0 hm
      rw [subseqCheck_ok_iff blAnc d0 rest (i + 1)]
      constructor
      · intro hsubAll
        refine ⟨0, d0, by simp, ?_, ⟨by omega, ?_⟩, ?_, ?_⟩
        · intro j' u hj' hcon
          exact absurd hj' (by omega)
        · have hidx : i + 0 + d0 = i + d0 := by omega
          rw [hidx]
          simpa using hget0
        · intro u h1 h2 h3
          have h3' : blAnc.get? u = some anc := by simpa using h3
          have := hmax0 u (by omega) h2 h3'
          omega
        · intro j' hj1 hj2 hj3
          match j' with
          | j'' + 1 =>
            rw [List.get?_cons_succ]
            have hidx : i + (j'' + 1) + d0 = i + 1 + j'' + d0 := by omega
            rw [hidx]
            exact hsubAll j'' (by simp at hj2; omega) (by omega)
      · rintro ⟨j, d, hjlen, hfirst, ⟨hmlt, hmget⟩, hmax, hsub⟩
        have hj0 : j = 0 := by
          by_contra hne
          have h1 : 0 < j := Nat.pos_of_ne_zero hne
          exact hfirst 0 (i + d0) h1 ⟨by omega, hlt0, by simpa using hget0⟩
        subst hj0
        have hdle : d ≤ d0 := by
          have hmget' : blAnc.get? (i + d) = some anc := by simpa using hmget
          have := hmax0 (i + d) (by omega) (by simpa using hmlt) hmget'
          omega
        have hd0le : d0 ≤ d := by
          have := hmax (i + d0) (by omega) hlt0 (by simpa using hget0)
          omega
        have hdd : d = d0 := by omega
        subst hdd
        intro j'' hjlen'' hlt''
        have h := hsub (j'' + 1) (by omega) (by simp; omega) (by omega)
        rw [List.get?_cons_succ] at h
        have hidx : i + (j'' + 1) + d = i + 1 + j'' + d := by omega
        rw [hidx] at h
        exact h

/-- A side ancestor entry `k` matching position `u` of the block's ancestor
array at or past `k` (the code only accepts offsets `vid ≥ ancid`). -/
def MatchAt (blAnc sideAnc : List Hash) (k u : Nat) : Prop :=
  k ≤ u ∧ u < blAnc.length ∧ blAnc.get? u = sideAnc.get? k

/-- The declarative alignment actually implemented by `checkBlock`: at the
FIRST side index `k` that matches anywhere, the offset `d` is the LARGEST
one (the scan keeps overwriting with later matches), and every subsequent
entry must agree at `d` as long as `k' + d` stays inside the block's
ancestor array. -/
def AlignedLargest (blAnc sideAnc : List Hash) : Prop :=
  ∃ k d, k < sideAnc.length ∧
    (∀ k' u, k' < k → ¬ MatchAt blAnc sideAnc k' u) ∧
    MatchAt blAnc sideAnc k (k + d) ∧
    (∀ u, MatchAt blAnc sideAnc k u → u ≤ k + d) ∧
    (∀ k', k < k' → k' < sideAnc.length → k' + d < blAnc.length →
      blAnc.get? (k' + d) = sideAnc.get? k')

/-- C2 amended: the side-ancestor rule accepts exactly when the first
matching side index aligns at its largest matching offset and all
subsequent in-range entries agree at that offset (the claim said the
smallest offset; the counterexample shows the code keeps the largest). -/
theorem sideAncestors_amended_largest_offset (blAnc sideAnc : List Hash) :
    sideAncestorsCheck blAnc sideAnc = .ok () ↔ AlignedLargest blAnc sideAnc := by
  rw [sideAncestorsCheck, findCommonFrom_ok_iff]
  constructor
  · rintro ⟨j, d, hjlen, hfirst, ⟨hmlt, hmget⟩, hmax, hsub⟩
    refine ⟨j, d, hjlen, ?_, ⟨by omega, by simpa using hmlt, by simpa using hmget⟩, ?_, ?_⟩
    · intro k' u hk' hcon
      obtain ⟨h1, h2, h3⟩ := hcon
      exact hfirst k' u hk' ⟨by omega, h2, h3⟩
    · intro u hu
      obtain ⟨h1, h2, h3⟩ := hu
      have := hmax u (by omega) h2 h3
      omega
    · intro k' h1 h2 h3
      have h := hsub k' (by omega) h2 (by omega)
      simpa using h
  · rintro ⟨k, d, hk, hfirst, ⟨h1, h2, h3⟩, hmax, hsub⟩
    refine ⟨k, d, hk, ?_, ⟨by omega, by simpa using h3⟩, ?_, ?_⟩
    · intro j' u hj' hcon
      obtain ⟨g1, g2, g3⟩ := hcon
      exact hfirst j' u hj' ⟨by omega, g2, g3⟩
    · intro u hu1 hu2 hu3
      have := hmax u ⟨by omega, hu2, hu3⟩
      omega
    · intro j' ha hb hc
      have h := hsub j' (by omega) hb (by omega)
      simpa using h

/-! ## C7: `setMiningBlob` -/

/-- The chain loop of `setMiningBlob`, mirroring the Go control flow: the
accumulator `oc` is the block's `OtherChains` built so far, `contains`
records whether the current network id has been seen, and `lastNid` is the
(never-updated) sort watermark.  On the first chain whose network id
differs from the current network's, the Go code appends it and immediately
`return nil`s out of the whole function. -/
def setMiningBlobChains (networkID : Nat) :
    List HashingID → List HashingID → Bool → Nat → Option (List HashingID)
  | [], oc, contains, _ => if contains then some oc else none
  | v :: rest, oc, contains, lastNid =>
    if v.networkID ≠ networkID then
      if v.networkID ≤ lastNid then none
      else if oc.any (fun o => o.hash = v.hash ∨ o.networkID = v.networkID) then none
      else some (oc ++ [v])
    else
      if contains then none
      else setMiningBlobChains networkID rest oc true lastNid

/-- `setMiningBlob` from `block.go`: copy the blob's timestamp, nonce and
nonce-extra onto the block and rebuild `OtherChains` from the blob's chain
list.  `networkID` stands for the constant `config.NETWORK_ID`. -/
def setMiningBlob (networkID : Nat) (b : Block) (m : MiningBlob) : Option Block :=
  let b1 : Block := {b with timestamp := m.timestamp, nonce := m.nonce,
                            nonceExtra := m.nonceExtra, otherChains := []}
  match setMiningBlobChains networkID m.chains [] false 0 with
  | none => none
  | some oc => some {b1 with otherChains := oc}

/-- A mining blob that does NOT contain the current network id 1. -/
def mbC7 : MiningBlob := ⟨123, 4, 5, [⟨2, 7⟩]⟩

/-- A block to receive the C7 blob. -/
def blC7 : Block := ⟨0, 0, 0, 0, 0, [], 0, [], [], 1, 1, []⟩

/-- C7: the early `return nil` after appending the first foreign chain
makes `setMiningBlob` SUCCEED on a blob in which the current network id
appears zero times (the `containsNetworkID` check is never reached),
contradicting the claim that such blobs are always rejected. -/
theorem setMiningBlob_missing_network_ok :
    setMiningBlob 1 blC7 mbC7 =
        some {blC7 with timestamp := 123, nonce := 4, nonceExtra := 5,
                        otherChains := [⟨2, 7⟩]} ∧
      mbC7.chains.countP (fun c => c.networkID = 1) = 0 := by
  constructor
  · rfl
  · rfl

/-! ## State engine: `ApplyBlockToState` and `RemoveBlockFromState` (C1) -/

/-- One transaction step of `ApplyBlockToState`: fetch the transaction,
check and debit the sender, credit the recipient, record the `INTX`,
`OUTTX` and `TX_HEIGHT` indices, accumulate the fee. -/
def applyTx (ctx : Ctx) (height : Nat) (cs : ChainState) (txid : Hash) (totalFee : Nat) :
    Option (ChainState × Nat) :=
  match lookupK cs.txs txid with
  | none => none
  | some t =>
    let senderAddr := ctx.fromPubKey t.sender
    match lookupK cs.state senderAddr with
    | none => none
    | some senderState =>
      if senderState.balance < add64 t.amount t.fee then none
      else if t.nonce ≠ add64 senderState.lastNonce 1 then none
      else
        let senderState' : AccState :=
          ⟨sub64 senderState.balance (add64 t.amount t.fee),
            add64 senderState.lastNonce 1, senderState.lastIncoming⟩
        let st1 := insertK cs.state senderAddr senderState'
        let recState := (lookupK st1 t.recipient).getD ⟨0, 0, 0⟩
        let recState' : AccState :=
          ⟨add64 recState.balance t.amount, recState.lastNonce,
            add64 recState.lastIncoming 1⟩
        some ({cs with
                state := insertK st1 t.recipient recState',
                intx := insertK cs.intx (t.recipient, recState'.lastIncoming) txid,
                outtx := insertK cs.outtx (senderAddr, senderState'.lastNonce) txid,
                txHeight := insertK cs.txHeight txid height},
              add64 totalFee t.fee)

/-- The transaction loop of `ApplyBlockToState`, in block order. -/
def applyTxs (ctx : Ctx) (height : Nat) :
    List Hash → ChainState → Nat → Option (ChainState × Nat)
  | [], cs, totalFee => some (cs, totalFee)
  | t :: rest, cs, totalFee =>
    match applyTx ctx height cs t totalFee with
    | none => none
    | some (cs', f') => applyTxs ctx height rest cs' f'

/-- `ApplyBlockToState`: drop the block's transactions from the mempool,
apply each transaction, then apply the coinbase — the miner gets
`total − gov` with an `INTX` record keyed by the block hash, the genesis
(governance) address gets `gov = total · p / 100` with no record. -/
def ApplyBlockToState (ctx : Ctx) (cs : ChainState) (bl : Block) : Option ChainState :=
  let cs0 := {cs with mempool := cs.mempool.filter (fun t => ¬ bl.transactions.contains t)}
  match applyTxs ctx bl.height bl.transactions cs0 0 with
  | none => none
  | some (cs1, totalFee) =>
    let totalReward := add64 (ctx.reward bl.height) totalFee
    let governanceReward := mul64 totalReward ctx.feePercent / 100
    let minerReward := sub64 totalReward governanceReward
    let minerState := (lookupK cs1.state bl.recipient).getD ⟨0, 0, 0⟩
    let minerState' : AccState :=
      ⟨add64 minerState.balance minerReward, minerState.lastNonce,
        add64 minerState.lastIncoming 1⟩
    let st2 := insertK cs1.state bl.recipient minerState'
    let govState := (lookupK st2 ctx.genesisAddr).getD ⟨0, 0, 0⟩
    let govState' : AccState :=
      ⟨add64 govState.balance governanceReward, govState.lastNonce, govState.lastIncoming⟩
    some {cs1 with
            state := insertK st2 ctx.genesisAddr govState',
            intx := insertK cs1.intx (bl.recipient, minerState'.lastIncoming) (ctx.hashOf bl)}

/-- The fee-summing fetch loop of `RemoveBlockFromState`: load every
transaction of the block from the `TX` bucket (missing = corruption,
fail) and sum the fees. -/
def fetchTxs (cs : ChainState) : List Hash → Option (List (Hash × Transaction) × Nat)
  | [] => some ([], 0)
  | v :: rest =>
    match lookupK cs.txs v with
    | none => none
    | some t =>
      match fetchTxs cs rest with
      | none => none
      | some (l, f) => some ((v, t) :: l, add64 f t.fee)

/-- One reversal step of `RemoveBlockFromState`.  A `none` entry is one of
the zero-value padding slots produced by `make([]txCache, len)` followed by
`append`: the Go code dereferences its nil `*Transaction`, which panics —
modelled as failure. -/
def removeTx (ctx : Ctx) (height : Nat) (cs : ChainState) :
    Option (Hash × Transaction) → Option ChainState
  | none => none
  | some (txhash, t) =>
    let senderAddr := ctx.fromPubKey t.sender
    match lookupK cs.state t.recipient with
    | none => none
    | some recState =>
      if recState.balance < add64 t.amount t.fee then none
      else if recState.lastIncoming = 0 then none
      else
        let recState' : AccState :=
          ⟨sub64 recState.balance t.amount, recState.lastNonce, recState.lastIncoming - 1⟩
        let st1 := insertK cs.state t.recipient recState'
        match lookupK st1 senderAddr with
        | none => none
        | some senderState =>
          if senderState.lastNonce = 0 then none
          else
            let senderState' : AccState :=
              ⟨add64 (add64 senderState.balance t.amount) t.fee,
                senderState.lastNonce - 1, senderState.lastIncoming⟩
            some {cs with
                    state := insertK st1 senderAddr senderState',
                    txHeight := insertK cs.txHeight txhash height}

/-- The reverse transaction loop of `RemoveBlockFromState`. -/
def removeTxs (ctx : Ctx) (height : Nat) :
    List (Option (Hash × Transaction)) → ChainState → Option ChainState
  | [], cs => some cs
  | e :: rest, cs =>
    match removeTx ctx height cs e with
    | none => none
    | some cs' => removeTxs ctx height rest cs'

/-- `RemoveBlockFromState`: fetch the block's transactions and their fee
sum, undo the coinbase (miner then governance), then undo the transactions
in reverse order.  The `txs` slice is built with
`make([]txCache, len(bl.Transactions))` and then `append`ed to, so it
carries `len(bl.Transactions)` leading zero-value (nil-pointer) entries
before the real ones — reproduced here as `none` padding. -/
def RemoveBlockFromState (ctx : Ctx) (cs : ChainState) (bl : Block) (_blhash : Hash) :
    Option ChainState :=
  match fetchTxs cs bl.transactions with
  | none => none
  | some (fetched, totalFee) =>
    let txsPadded : List (Option (Hash × Transaction)) :=
      List.replicate bl.transactions.length none ++ fetched.map some
    let totalReward := add64 (ctx.reward bl.height) totalFee
    let governanceReward := mul64 totalReward ctx.feePercent / 100
    let minerReward := sub64 totalReward governanceReward
    match lookupK cs.state bl.recipient with
    | none => none
    | some minerState =>
      if minerState.balance < minerReward then none
      else if minerState.lastIncoming = 0 then none
      else
        let minerState' : AccState :=
          ⟨sub64 minerState.balance minerReward, minerState.lastNonce,
            minerState.lastIncoming - 1⟩
        let st1 := insertK cs.state bl.recipient minerState'
        match lookupK st1 ctx.genesisAddr with
        | none => none
        | some govState =>
          if govState.balance < governanceReward then none
          else
            let govState' : AccState :=
              ⟨sub64 govState.balance governanceReward, govState.lastNonce,
                govState.lastIncoming⟩
            removeTxs ctx bl.height txsPadded.reverse
              {cs with state := insertK st1 ctx.genesisAddr govState'}

/-- A concrete oracle context for C1: identity address derivation, flat
reward 100, 10% governance fee, genesis address 99, block hash 77. -/
def ctxC1 : Ctx := ⟨id, fun _ => 100, 10, 99, fun _ => 77, fun _ _ => none, fun _ => ⟨[], 0, 0⟩⟩

/-- A concrete state for C1: sender 1 has balance 1000, recipient 2 has
balance 100, and the `TX` bucket holds transaction 5
(1 → 2, amount 10, fee 1, nonce 1). -/
def csC1 : ChainState :=
  ⟨[], [], [(1, ⟨1000, 0, 0⟩), (2, ⟨100, 0, 0⟩)], [(5, ⟨1, 2, 0, 1, 10, 1, 0⟩)],
    [], [], [], [], [], ⟨0, 0, 0, [], []⟩⟩

/-- A concrete one-transaction block for C1, paying miner address 3. -/
def blC1 : Block := ⟨0, 1, 0, 0, 0, [], 3, [], [], 1, 1, [5]⟩

/-- C1: the block applies successfully, but reversing it fails —
`RemoveBlockFromState` builds its `txs` slice with
`make([]txCache, len(bl.Transactions))` and then appends, so the reverse
loop reaches a padding entry whose `*Transaction` is nil and the Go code
panics (modelled as `none`).  `Remove(B, Apply(B, S))` therefore never
restores `S` for a block with at least one transaction. -/
theorem removeBlock_padding_crash :
    ∃ cs', ApplyBlockToState ctxC1 csC1 blC1 = some cs' ∧
      RemoveBlockFromState ctxC1 cs' blC1 77 = none := ⟨_, rfl, rfl⟩

/-! ## Chain engine: reorganization and block admission (C5, C8) -/

/-- `SetStats` / `setStatsNoBroadcast`: write the stats record (the
broadcast side effect is outside the model). -/
def setStats (cs : ChainState) (s : Stats) : ChainState := {cs with stats := s}

/-- `insertBlock`: write the block under its hash (the read-back sanity
check always succeeds in the model). -/
def insertBlock (cs : ChainState) (bl : Block) (hash : Hash) : ChainState :=
  {cs with blocks := insertK cs.blocks hash bl}

/-- `insertBlockMain`: write the block and its topo entry. -/
def insertBlockMain (cs : ChainState) (bl : Block) (hash : Hash) : ChainState :=
  {cs with blocks := insertK cs.blocks hash bl, topo := insertK cs.topo bl.height hash}

/-- Modelled from the spec: `BlockDownloaded` marks the queue entry keyed
(height, hash) as downloaded. -/
def queuedBlockDownloaded (cs : ChainState) (hash : Hash) (height : Nat) : ChainState :=
  {cs with queue := cs.queue.map fun e =>
    if e.height = height ∧ e.hash = hash then {e with downloaded := true} else e}

/-- Modelled from the spec: `RemoveBlock` drops the queue entry keyed
(height, hash). -/
def removeFromQueue (cs : ChainState) (hash : Hash) (height : Nat) : ChainState :=
  {cs with queue := cs.queue.filter fun e => ¬ (e.height = height ∧ e.hash = hash)}

/-- Step 1 of `CheckReorgs`: walk back from the best tip through parent
links collecting alt-chain blocks until a block already on the main chain
(its topo entry equals its hash) is found; fail at height 0.  A missing
topo entry compares as the zero hash, as in the Go code which ignores the
lookup error.  `fuel` bounds the walk (the Go loop is unbounded). -/
def reorgStep1 (blocks : List (Hash × Block)) (topo : List (Nat × Hash)) :
    Nat → Block → List (Hash × Block) → Option (Hash × List (Hash × Block))
  | 0, _, _ => none
  | fuel + 1, cur, acc =>
    let ph := cur.prevHash
    match lookupK blocks ph with
    | none => none
    | some pb =>
      if pb.height = 0 then none
      else if (lookupK topo pb.height).getD 0 = ph then some (ph, acc)
      else reorgStep1 blocks topo fuel pb (acc ++ [(ph, pb)])

/-- Step 2 of `CheckReorgs`: unwind the main chain from the current top,
deleting each block's topo entry and reversing its state changes, until the
common block is reached. -/
def reorgStep2 (ctx : Ctx) : Nat → ChainState → Hash → Block → Hash → Option ChainState
  | 0, _, _, _, _ => none
  | fuel + 1, cs, nHash, n, commonHash =>
    if nHash = commonHash then some cs
    else if n.height = 0 then none
    else
      match lookupK cs.blocks nHash with
      | none => none
      | some n' =>
        let cs1 := {cs with topo := removeK cs.topo n'.height}
        match RemoveBlockFromState ctx cs1 n' nHash with
        | none => none
        | some cs2 => reorgStep2 ctx fuel cs2 n'.prevHash n' commonHash

/-- Step 3 of `CheckReorgs`: replay the collected alt-chain blocks in
forward order — set the topo entry, re-run `checkBlock` against the (now
reachable) parent, apply to state, and drop the height from the download
queue. -/
def reorgStep3 (ctx : Ctx) : List (Hash × Block) → ChainState → Option ChainState
  | [], cs => some cs
  | (h, b) :: rest, cs =>
    let cs1 := {cs with topo := insertK cs.topo b.height h}
    match lookupK cs1.blocks b.prevHash with
    | none => none
    | some prevBl =>
      match checkBlock ctx cs1.blocks b prevBl with
      | .error _ => none
      | .ok () =>
        match ApplyBlockToState ctx cs1 b with
        | none => none
        | some cs2 =>
          reorgStep3 ctx rest {cs2 with queue := cs2.queue.filter fun e => e.height ≠ b.height}

/-- One step of the best-candidate selection loop of `CheckReorgs`: the
accumulator `(altDiff, altHash, altHeight)` is replaced when the tip's
cumulative difficulty is strictly greater. -/
def bestFoldStep (acc : Nat × Hash × Nat) (p : Hash × AltchainTip) : Nat × Hash × Nat :=
  if p.2.cumulativeDiff > acc.1 then (p.2.cumulativeDiff, p.2.hash, p.2.height) else acc

/-- The best-candidate selection of `CheckReorgs`: fold the strict-greater
comparison over the tips, seeded with the current top. -/
def bestTip (stats : Stats) : Nat × Hash × Nat :=
  stats.tips.foldl bestFoldStep (stats.cumulativeDiff, stats.topHash, stats.topHeight)

/-- `CheckReorgs`: select the best candidate, return immediately when it is
the current top, otherwise find the common block, unwind, replay and swap
the stats — the displaced top becomes a tip, the winner's tip entry is
deleted.  The result flag is `none` when the Go code returns an error (the
enclosing store transaction is rolled back). -/
def CheckReorgs (ctx : Ctx) (fuel : Nat) (cs : ChainState) (stats : Stats) :
    ChainState × Option Bool :=
  let best := bestTip stats
  if best.2.1 = stats.topHash then (cs, some false)
  else
    match lookupK cs.blocks best.2.1 with
    | none => (cs, none)
    | some cb0 =>
      match reorgStep1 cs.blocks cs.topo fuel cb0 [(best.2.1, cb0)] with
      | none => (cs, none)
      | some (commonHash, hashes) =>
        let s2res :=
          if stats.topHash ≠ commonHash then
            match lookupK cs.blocks stats.topHash with
            | none => none
            | some n0 =>
              if ctx.hashOf n0 = commonHash then some cs
              else reorgStep2 ctx fuel cs stats.topHash n0 commonHash
          else some cs
        match s2res with
        | none => (cs, none)
        | some cs2 =>
          match reorgStep3 ctx hashes.reverse cs2 with
          | none => (cs, none)
          | some cs3 =>
            let st := cs3.stats
            let tips2 := insertK (removeK st.tips best.2.1) st.topHash
              ⟨st.topHash, st.topHeight, st.cumulativeDiff⟩
            ({cs3 with stats := ⟨best.2.1, best.2.2, best.1, tips2, st.orphans⟩}, some true)

/-- `cleanupTips`: drop every tip whose (height, hash) is now on the main
chain. -/
def cleanupTips (cs : ChainState) (stats : Stats) : Stats :=
  {stats with tips := stats.tips.filter fun p =>
    ¬ (lookupK cs.topo p.2.height = some p.2.hash)}

/-- `deorphanBlock`: depth-first promotion of orphans whose parent just
became known — recompute the cumulative difficulty from the parent,
persist the corrected block, move the orphan to the tips.  Iteration over
the Go orphan map is resolved to list order; entries deleted by a nested
call are skipped (Go map iteration does not produce removed entries).  The
Boolean is the error flag of the current level (nested errors are ignored
by the Go code); `fuel` bounds the recursion. -/
def deorphanRec (ctx : Ctx) :
    Nat → List (Hash × Block) → Stats → Block → Hash → List (Hash × Orphan) →
      List (Hash × Block) × Stats × Bool
  | 0, blocks, stats, _, _, _ => (blocks, stats, false)
  | _ + 1, blocks, stats, _, _, [] => (blocks, stats, true)
  | fuel + 1, blocks, stats, prev, ph, (i, v) :: rest =>
    if v.prevHash = ph ∧ (lookupK stats.orphans i).isSome then
      match lookupK blocks v.hash with
      | none => (blocks, stats, false)
      | some bl =>
        let cdiff := add128 (add128 prev.cumulativeDiff bl.difficulty) (sideCredit bl)
        let bl' := if cdiff ≠ bl.cumulativeDiff then {bl with cumulativeDiff := cdiff} else bl
        let blocks1 := if cdiff ≠ bl.cumulativeDiff then insertK blocks v.hash bl' else blocks
        let stats1 : Stats := {stats with
          orphans := removeK stats.orphans i,
          tips := insertK (removeK stats.tips ph) v.hash
            ⟨v.hash, bl'.height, bl'.cumulativeDiff⟩}
        let r := deorphanRec ctx fuel blocks1 stats1 bl' v.hash stats1.orphans
        deorphanRec ctx fuel r.1 r.2.1 prev ph rest
    else deorphanRec ctx fuel blocks stats prev ph rest

/-- `checkDeorphanage`: run the deorphan pass from the just-inserted block,
save the stats, check for reorgs, and clean up absorbed tips after a
successful reorg. -/
def checkDeorphanage (ctx : Ctx) (fuel : Nat) (cs : ChainState) (bl : Block) (hash : Hash) :
    Option ChainState :=
  let stats := cs.stats
  match deorphanRec ctx fuel cs.blocks stats bl hash stats.orphans with
  | (blocks', stats', ok) =>
    if ok = false then none
    else
      let cs1 := setStats {cs with blocks := blocks'} stats'
      match CheckReorgs ctx fuel cs1 stats' with
      | (_, none) => none
      | (cs2, some r) =>
        if r then some (setStats cs2 (cleanupTips cs2 cs2.stats))
        else some cs2

/-- `addMainchainBlock`: apply to state, advance the top stats, insert the
block and its topo entry. -/
def addMainchainBlock (ctx : Ctx) (cs : ChainState) (bl : Block) (hash : Hash) :
    Option ChainState :=
  match ApplyBlockToState ctx cs bl with
  | none => none
  | some cs1 =>
    let stats' := {cs1.stats with topHash := hash, topHeight := bl.height,
                                  cumulativeDiff := bl.cumulativeDiff}
    some (insertBlockMain (setStats cs1 stats') bl hash)

/-- `addAltchainBlock`: advance the extended tip in place (the map key
stays the old hash) or create a new tip, insert the block, save the stats
and run the reorg check, whose error (if any) the Go caller ignores. -/
def addAltchainBlock (ctx : Ctx) (fuel : Nat) (cs : ChainState) (bl : Block) (hash : Hash) :
    ChainState :=
  let stats := cs.stats
  let tips' :=
    match lookupK stats.tips bl.prevHash with
    | some t => insertK stats.tips bl.prevHash ⟨hash, (t.height + 1) % W64, bl.cumulativeDiff⟩
    | none => insertK stats.tips hash ⟨hash, bl.height, bl.cumulativeDiff⟩
  let stats' := {stats with tips := tips'}
  let cs2 := setStats (insertBlock cs bl hash) stats'
  (CheckReorgs ctx fuel cs2 stats').1

/-- `addOrphanBlock`: refuse a duplicate orphan, otherwise record
`{hash, prev_hash, expires = now + 1h}`, enqueue a zero-height request for
the unknown parent, save the stats and persist the block to `BLOCK` only. -/
def addOrphanBlock (ctx : Ctx) (now : Nat) (cs : ChainState) (bl : Block) (hash : Hash)
    (parentKnown : Bool) : Option ChainState :=
  let stats := cs.stats
  if (lookupK stats.orphans hash).isSome then none
  else
    let orphan : Orphan := ⟨hash, bl.prevHash, now + 3600⟩
    let cs1 := if parentKnown then cs
      else {cs with queue := setBlock ⟨0, bl.prevHash, false⟩ false cs.queue}
    some (insertBlock (setStats cs1 {stats with orphans := insertK stats.orphans hash orphan})
      bl hash)

/-- `AddBlock`: duplicate check, the two orphan paths, `checkBlock`,
main-chain or alt-chain insertion, then the deorphanage pass.  `now` is the
wall clock in unix seconds; a `none` result is a returned error (the
enclosing store transaction is rolled back). -/
def AddBlock (ctx : Ctx) (fuel now : Nat) (cs : ChainState) (bl : Block) :
    Option ChainState :=
  let hash := ctx.hashOf bl
  if (lookupK cs.blocks hash).isSome then none
  else
    match lookupK cs.blocks bl.prevHash with
    | none =>
      match addOrphanBlock ctx now cs bl hash false with
      | none => none
      | some cs1 => some (queuedBlockDownloaded cs1 hash bl.height)
    | some prevBl =>
      if (lookupK cs.stats.orphans bl.prevHash).isSome then
        match addOrphanBlock ctx now cs bl hash true with
        | none => none
        | some cs1 => some (queuedBlockDownloaded cs1 hash bl.height)
      else
        match checkBlock ctx cs.blocks bl prevBl with
        | .error _ => none
        | .ok () =>
          let next :=
            if bl.prevHash = cs.stats.topHash then
              addMainchainBlock ctx (removeFromQueue cs hash bl.height) bl hash
            else some (addAltchainBlock ctx fuel (queuedBlockDownloaded cs hash bl.height) bl hash)
          match next with
          | none => none
          | some cs2 => checkDeorphanage ctx fuel cs2 bl hash

/-! ## C5: after `CheckReorgs`, no tip dominates the top -/

theorem applyTx_stats (ctx : Ctx) (hh : Nat) (cs : ChainState) (t : Hash) (f : Nat)
    (cs' : ChainState) (f' : Nat) (heq : applyTx ctx hh cs t f = some (cs', f')) :
    cs'.stats = cs.stats := by
  unfold applyTx at heq
  cases h1 : lookupK cs.txs t with
  | none => simp [h1] at heq
  | some tx =>
    simp only [h1] at heq
    cases h2 : lookupK cs.state (ctx.fromPubKey tx.sender) with
    | none => simp [h2] at heq
    | some senderState =>
      simp only [h2] at heq
      by_cases h3 : senderState.balance < add64 tx.amount tx.fee
      · rw [if_pos h3] at heq
        simp at heq
      · rw [if_neg h3] at heq
        by_cases h4 : tx.nonce ≠ add64 senderState.lastNonce 1
        · rw [if_pos h4] at heq
          simp at heq
        · rw [if_neg h4] at heq
          simp only [Option.some.injEq, Prod.mk.injEq] at heq
          obtain ⟨h5, -⟩ := heq
          subst h5
          rfl

theorem applyTxs_stats (ctx : Ctx) (hh : Nat) :
    ∀ (l : List Hash) (cs : ChainState) (f : Nat) (cs' : ChainState) (f' : Nat),
      applyTxs ctx hh l cs f = some (cs', f') → cs'.stats = cs.stats := by
  intro l
  induction l with
  | nil =>
    intro cs f cs' f' heq
    simp only [applyTxs, Option.some.injEq, Prod.mk.injEq] at heq
    obtain ⟨h1, -⟩ := heq
    subst h1
    rfl
  | cons t rest ih =>
    intro cs f cs' f' heq
    cases hstep : applyTx ctx hh cs t f with
    | none =>
      rw [applyTxs] at heq
      simp [hstep] at heq
    | some p =>
      obtain ⟨cs2, f2⟩ := p
      rw [applyTxs] at heq
      simp only [hstep] at heq
      exact (ih cs2 f2 cs' f' heq).trans (applyTx_stats ctx hh cs t f cs2 f2 hstep)

theorem applyBlock_stats (ctx : Ctx) (cs : ChainState) (bl : Block) (cs' : ChainState)
    (heq : ApplyBlockToState ctx cs bl = some cs') : cs'.stats = cs.stats := by
  simp only [ApplyBlockToState] at heq
  split at heq
  · simp at heq
  · rename_i cs1 totalFee hloop
    simp only [Option.some.injEq] at heq
    subst heq
    have h1 := applyTxs_stats ctx bl.height bl.transactions _ 0 cs1 totalFee hloop
    simpa using h1

theorem removeTx_stats (ctx : Ctx) (hh : Nat) (cs : ChainState)
    (e : Option (Hash × Transaction)) (cs' : ChainState)
    (heq : removeTx ctx hh cs e = some cs') : cs'.stats = cs.stats := by
  match e with
  | none => simp [removeTx] at heq
  | some (txhash, t) =>
    unfold removeTx at heq
    cases h1 : lookupK cs.state t.recipient with
    | none => simp [h1] at heq
    | some recState =>
      simp only [h1] at heq
      by_cases h2 : recState.balance < add64 t.amount t.fee
      · rw [if_pos h2] at heq
        simp at heq
      · rw [if_neg h2] at heq
        by_cases h3 : recState.lastIncoming = 0
        · rw [if_pos h3] at heq
          simp at heq
        · rw [if_neg h3] at heq
          cases h4 : lookupK
              (insertK cs.state t.recipient
                ⟨sub64 recState.balance t.amount, recState.lastNonce, recState.lastIncoming - 1⟩)
              (ctx.fromPubKey t.sender) with
          | none => simp [h4] at heq
          | some senderState =>
            simp only [h4] at heq
            by_cases h5 : senderState.lastNonce = 0
            · rw [if_pos h5] at heq
              simp at heq
            · rw [if_neg h5] at heq
              simp only [Option.some.injEq] at heq
              subst heq
              rfl

theorem removeTxs_stats (ctx : Ctx) (hh : Nat) :
    ∀ (l : List (Option (Hash × Transaction))) (cs cs' : ChainState),
      removeTxs ctx hh l cs = some cs' → cs'.stats = cs.stats := by
  intro l
  induction l with
  | nil =>
    intro cs cs' heq
    simp only [removeTxs, Option.some.injEq] at heq
    subst heq
    rfl
  | cons e rest ih =>
    intro cs cs' heq
    cases hstep : removeTx ctx hh cs e with
    | none =>
      rw [removeTxs] at heq
      simp [hstep] at heq
    | some cs2 =>
      rw [removeTxs] at heq
      simp only [hstep] at heq
      exact (ih cs2 cs' heq).trans (removeTx_stats ctx hh cs e cs2 hstep)

theorem removeBlock_stats (ctx : Ctx) (cs : ChainState) (bl : Block) (h : Hash)
    (cs' : ChainState) (heq : RemoveBlockFromState ctx cs bl h = some cs') :
    cs'.stats = cs.stats := by
  simp only [RemoveBlockFromState] at heq
  repeat' split at heq
  all_goals first
    | exact (removeTxs_stats ctx bl.height _ _ _ heq).trans (by simp)
    | simp at heq

theorem reorgStep2_stats (ctx : Ctx) :
    ∀ (fuel : Nat) (cs : ChainState) (nHash : Hash) (n : Block) (ch : Hash) (cs' : ChainState),
      reorgStep2 ctx fuel cs nHash n ch = some cs' → cs'.stats = cs.stats := by
  intro fuel
  induction fuel with
  | zero =>
    intro cs nHash n ch cs' heq
    simp [reorgStep2] at heq
  | succ f ih =>
    intro cs nHash n ch cs' heq
    rw [reorgStep2] at heq
    by_cases h1 : nHash = ch
    · rw [if_pos h1] at heq
      simp only [Option.some.injEq] at heq
      subst heq
      rfl
    · rw [if_neg h1] at heq
      by_cases h2 : n.height = 0
      · rw [if_pos h2] at heq
        simp at heq
      · rw [if_neg h2] at heq
        cases hblk : lookupK cs.blocks nHash with
        | none => simp [hblk] at heq
        | some n' =>
          simp only [hblk] at heq
          cases hrm : RemoveBlockFromState ctx {cs with topo := removeK cs.topo n'.height} n' nHash with
          | none => simp [hrm] at heq
          | some cs2 =>
            simp only [hrm] at heq
            have ha := ih cs2 n'.prevHash n' ch cs' heq
            have hb := removeBlock_stats ctx _ n' nHash cs2 hrm
            simp at hb
            exact ha.trans hb

theorem reorgStep3_stats (ctx : Ctx) :
    ∀ (l : List (Hash × Block)) (cs cs' : ChainState),
      reorgStep3 ctx l cs = some cs' → cs'.stats = cs.stats := by
  intro l
  induction l with
  | nil =>
    intro cs cs' heq
    simp only [reorgStep3, Option.some.injEq] at heq
    subst heq
    rfl
  | cons p rest ih =>
    intro cs cs' heq
    obtain ⟨h, b⟩ := p
    simp only [reorgStep3] at heq
    cases hblk : lookupK cs.blocks b.prevHash with
    | none => simp [hblk] at heq
    | some prevBl =>
      simp only [hblk] at heq
      cases hchk : checkBlock ctx cs.blocks b prevBl with
      | error e => simp [hchk] at heq
      | ok u =>
        cases u
        simp only [hchk] at heq
        cases hap : ApplyBlockToState ctx {cs with topo := insertK cs.topo b.height h} b with
        | none => simp [hap] at heq
        | some cs2 =>
          simp only [hap] at heq
          have ha := ih _ cs' heq
          have hb := applyBlock_stats ctx _ b cs2 hap
          simp at ha hb
          exact ha.trans hb

theorem bestFold_init_le (l : List (Hash × AltchainTip)) :
    ∀ init : Nat × Hash × Nat, init.1 ≤ (l.foldl bestFoldStep init).1 := by
  induction l with
  | nil => intro init; simp
  | cons q rest ih =>
    intro init
    rw [List.foldl_cons]
    refine le_trans ?_ (ih (bestFoldStep init q))
    by_cases hc : q.2.cumulativeDiff > init.1
    · have hstep : bestFoldStep init q = (q.2.cumulativeDiff, q.2.hash, q.2.height) := by
        unfold bestFoldStep
        rw [if_pos hc]
      rw [hstep]
      exact Nat.le_of_lt hc
    · have hstep : bestFoldStep init q = init := by
        unfold bestFoldStep
        rw [if_neg hc]
      rw [hstep]

theorem bestFold_mem_le (l : List (Hash × AltchainTip)) :
    ∀ (init : Nat × Hash × Nat) (p : Hash × AltchainTip), p ∈ l →
      p.2.cumulativeDiff ≤ (l.foldl bestFoldStep init).1 := by
  induction l with
  | nil => intro init p hp; simp at hp
  | cons q rest ih =>
    intro init p hp
    rw [List.foldl_cons]
    rcases List.mem_cons.mp hp with h | h
    · subst h
      refine le_trans ?_ (bestFold_init_le rest (bestFoldStep init p))
      by_cases hc : p.2.cumulativeDiff > init.1
      · have hstep : bestFoldStep init p = (p.2.cumulativeDiff, p.2.hash, p.2.height) := by
          unfold bestFoldStep
          rw [if_pos hc]
        rw [hstep]
      · have hstep : bestFoldStep init p = init := by
          unfold bestFoldStep
          rw [if_neg hc]
        rw [hstep]
        omega
    · exact ih (bestFoldStep init q) p h

theorem bestFold_cases (l : List (Hash × AltchainTip)) :
    ∀ init : Nat × Hash × Nat, l.foldl bestFoldStep init = init ∨
      ∃ p ∈ l, (l.foldl bestFoldStep init).2.1 = p.2.hash ∧
        (l.foldl bestFoldStep init).1 = p.2.cumulativeDiff := by
  induction l with
  | nil => intro init; left; simp
  | cons q rest ih =>
    intro init
    rw [List.foldl_cons]
    by_cases hc : q.2.cumulativeDiff > init.1
    · have hstep : bestFoldStep init q = (q.2.cumulativeDiff, q.2.hash, q.2.height) := by
        unfold bestFoldStep
        rw [if_pos hc]
      rw [hstep]
      right
      rcases ih (q.2.cumulativeDiff, q.2.hash, q.2.height) with h | ⟨p, hp, h1, h2⟩
      · exact ⟨q, List.mem_cons_self q rest, by rw [h], by rw [h]⟩
      · exact ⟨p, List.mem_cons_of_mem _ hp, h1, h2⟩
    · have hstep : bestFoldStep init q = init := by
        unfold bestFoldStep
        rw [if_neg hc]
      rw [hstep]
      rcases ih init with h | ⟨p, hp, h1, h2⟩
      · left; exact h
      · right; exact ⟨p, List.mem_cons_of_mem _ hp, h1, h2⟩

theorem bestFold_max_eq (l : List (Hash × AltchainTip)) :
    ∀ init : Nat × Hash × Nat,
      (l.foldl bestFoldStep init).1 = l.foldl (fun a p => max a p.2.cumulativeDiff) init.1 := by
  induction l with
  | nil => intro init; simp
  | cons q rest ih =>
    intro init
    rw [List.foldl_cons, List.foldl_cons, ih (bestFoldStep init q)]
    congr 1
    by_cases hc : q.2.cumulativeDiff > init.1
    · have hstep : bestFoldStep init q = (q.2.cumulativeDiff, q.2.hash, q.2.height) := by
        unfold bestFoldStep
        rw [if_pos hc]
      rw [hstep]
      show q.2.cumulativeDiff = max init.1 q.2.cumulativeDiff
      omega
    · have hstep : bestFoldStep init q = init := by
        unfold bestFoldStep
        rw [if_neg hc]
      rw [hstep]
      show init.1 = max init.1 q.2.cumulativeDiff
      omega

/-- The maximum cumulative difficulty over the current top and all tips. -/
def tipsMax (stats : Stats) : Nat :=
  stats.tips.foldl (fun a p => max a p.2.cumulativeDiff) stats.cumulativeDiff

theorem bestTip_top_le (stats : Stats)
    (htips : ∀ p ∈ stats.tips, p.2.hash = stats.topHash →
      p.2.cumulativeDiff ≤ stats.cumulativeDiff)
    (hsame : (bestTip stats).2.1 = stats.topHash) :
    (bestTip stats).1 ≤ stats.cumulativeDiff := by
  unfold bestTip at *
  rcases bestFold_cases stats.tips (stats.cumulativeDiff, stats.topHash, stats.topHeight)
    with h | ⟨p, hp, h1, h2⟩
  · rw [h]
  · rw [h2]
    refine htips p hp ?_
    rw [← h1]
    exact hsame

/-- C5: after a successful run of `CheckReorgs` (with consistent stored
stats, and no tip entry naming the current top while claiming more than its
recorded cumulative difficulty), the resulting top cumulative difficulty is
the maximum over the previous top and all tips, and no remaining tip has
strictly greater cumulative difficulty than the new top — the displaced top
having been re-inserted as a tip with its smaller difficulty. -/
theorem checkReorgs_top_dominates (ctx : Ctx) (fuel : Nat) (cs : ChainState) (stats : Stats)
    (cs' : ChainState) (b : Bool)
    (hcs : cs.stats = stats)
    (htips : ∀ p ∈ stats.tips, p.2.hash = stats.topHash →
      p.2.cumulativeDiff ≤ stats.cumulativeDiff)
    (hrun : CheckReorgs ctx fuel cs stats = (cs', some b)) :
    cs'.stats.cumulativeDiff = tipsMax stats ∧
      ∀ p ∈ cs'.stats.tips, p.2.cumulativeDiff ≤ cs'.stats.cumulativeDiff := by
  have hmaxeq : (bestTip stats).1 = tipsMax stats := by
    unfold bestTip tipsMax
    exact bestFold_max_eq _ _
  have hinit : stats.cumulativeDiff ≤ (bestTip stats).1 := by
    unfold bestTip
    exact bestFold_init_le stats.tips (stats.cumulativeDiff, stats.topHash, stats.topHeight)
  have hmem : ∀ p ∈ stats.tips, p.2.cumulativeDiff ≤ (bestTip stats).1 := by
    intro p hp
    unfold bestTip
    exact bestFold_mem_le stats.tips (stats.cumulativeDiff, stats.topHash, stats.topHeight) p hp
  simp only [CheckReorgs] at hrun
  by_cases hsame : (bestTip stats).2.1 = stats.topHash
  · rw [if_pos hsame] at hrun
    simp only [Prod.mk.injEq, Option.some.injEq] at hrun
    obtain ⟨h1, -⟩ := hrun
    subst h1
    have hle : (bestTip stats).1 ≤ stats.cumulativeDiff := bestTip_top_le stats htips hsame
    have heq1 : (bestTip stats).1 = stats.cumulativeDiff := le_antisymm hle hinit
    constructor
    · rw [hcs, ← heq1, hmaxeq]
    · intro p hp
      rw [hcs] at hp ⊢
      have := hmem p hp
      omega
  · rw [if_neg hsame] at hrun
    cases hb0 : lookupK cs.blocks (bestTip stats).2.1 with
    | none => simp [hb0] at hrun
    | some cb0 =>
      simp only [hb0] at hrun
      cases hs1 : reorgStep1 cs.blocks cs.topo fuel cb0 [((bestTip stats).2.1, cb0)] with
      | none => simp [hs1] at hrun
      | some pr =>
        obtain ⟨commonHash, hashes⟩ := pr
        simp only [hs1] at hrun
        -- three ways to obtain the post-unwind state cs2 with unchanged stats
        have main : ∀ cs2 : ChainState, cs2.stats = cs.stats →
            (match reorgStep3 ctx hashes.reverse cs2 with
              | none => (cs, none)
              | some cs3 =>
                ({cs3 with stats :=
                    ⟨(bestTip stats).2.1, (bestTip stats).2.2, (bestTip stats).1,
                      insertK (removeK cs3.stats.tips (bestTip stats).2.1) cs3.stats.topHash
                        ⟨cs3.stats.topHash, cs3.stats.topHeight, cs3.stats.cumulativeDiff⟩,
                      cs3.stats.orphans⟩}, some true)) = (cs', some b) →
            cs'.stats.cumulativeDiff = tipsMax stats ∧
              ∀ p ∈ cs'.stats.tips, p.2.cumulativeDiff ≤ cs'.stats.cumulativeDiff := by
          intro cs2 hstats2 hrun2
          cases hs3 : reorgStep3 ctx hashes.reverse cs2 with
          | none => simp [hs3] at hrun2
          | some cs3 =>
            simp only [hs3] at hrun2
            simp only [Prod.mk.injEq, Option.some.injEq] at hrun2
            obtain ⟨h1, -⟩ := hrun2
            have hstats3 : cs3.stats = stats :=
              (reorgStep3_stats ctx _ cs2 cs3 hs3).trans (hstats2.trans hcs)
            have hcs' : cs'.stats =
                ⟨(bestTip stats).2.1, (bestTip stats).2.2, (bestTip stats).1,
                  insertK (removeK stats.tips (bestTip stats).2.1) stats.topHash
                    ⟨stats.topHash, stats.topHeight, stats.cumulativeDiff⟩,
                  stats.orphans⟩ := by
              rw [← h1, hstats3]
            constructor
            · rw [hcs']
              exact hmaxeq
            · intro p hp
              rw [hcs'] at hp ⊢
              have hp' : p ∈ insertK (removeK stats.tips (bestTip stats).2.1) stats.topHash
                  ⟨stats.topHash, stats.topHeight, stats.cumulativeDiff⟩ := hp
              rcases mem_insertK _ _ _ p hp' with hin | hpe
              · have hmemp := mem_removeK _ _ _ hin
                show p.2.cumulativeDiff ≤ (bestTip stats).1
                exact hmem p hmemp
              · rw [hpe]
                show stats.cumulativeDiff ≤ (bestTip stats).1
                exact hinit
        by_cases ht : stats.topHash = commonHash
        · rw [if_neg (by simp [ht])] at hrun
          exact main cs rfl hrun
        · rw [if_pos ht] at hrun
          cases hn0 : lookupK cs.blocks stats.topHash with
          | none => simp [hn0] at hrun
          | some n0 =>
            simp only [hn0] at hrun
            by_cases hh0 : ctx.hashOf n0 = commonHash
            · rw [if_pos hh0] at hrun
              exact main cs rfl hrun
            · rw [if_neg hh0] at hrun
              cases hs2 : reorgStep2 ctx fuel cs stats.topHash n0 commonHash with
              | none => simp [hs2] at hrun
              | some cs2 =>
                simp only [hs2] at hrun
                exact main cs2 (reorgStep2_stats ctx fuel cs stats.topHash n0 commonHash cs2 hs2) hrun

/-- A concrete stats record for the C5 witness: top at hash 7 with
cumulative difficulty 5 and no tips. -/
def statsC5 : Stats := ⟨7, 0, 5, [], []⟩

/-- A concrete chain state for the C5 witness. -/
def csC5 : ChainState := ⟨[], [], [], [], [], [], [], [], [], statsC5⟩

/-- A concrete oracle context for the C5 witness. -/
def ctxC5 : Ctx := ⟨id, fun _ => 0, 0, 0, fun _ => 0, fun _ _ => none, fun _ => ⟨[], 0, 0⟩⟩

/-- Witness for C5 at a concrete no-tip state (no reorg needed). -/
theorem checkReorgs_top_dominates_witness :
    csC5.stats = statsC5 ∧
      (csC5.stats.cumulativeDiff = tipsMax statsC5 ∧
        ∀ p ∈ csC5.stats.tips, p.2.cumulativeDiff ≤ csC5.stats.cumulativeDiff) :=
  ⟨rfl, checkReorgs_top_dominates ctxC5 1 csC5 statsC5 csC5 false rfl
    (by intro p hp; simp [statsC5] at hp) rfl⟩

/-! ## C8: the orphan paths of `AddBlock` -/

/-- C8: when the block is not a duplicate, no orphan is already recorded
under its hash, and its parent is either unknown or itself orphaned,
`AddBlock` succeeds, records the orphan entry
`{hash, prev_hash, expires = now + 1h}`, persists the block to the `BLOCK`
bucket, and leaves the `STATE` bucket, the `TOPO` bucket and `stats.Tips`
unchanged. -/
theorem addBlock_orphan_frame (ctx : Ctx) (fuel now : Nat) (cs : ChainState) (bl : Block)
    (hdup : lookupK cs.blocks (ctx.hashOf bl) = none)
    (horph : lookupK cs.stats.orphans (ctx.hashOf bl) = none)
    (hpar : lookupK cs.blocks bl.prevHash = none ∨
      (lookupK cs.stats.orphans bl.prevHash).isSome = true) :
    ∃ cs', AddBlock ctx fuel now cs bl = some cs' ∧
      cs'.state = cs.state ∧ cs'.topo = cs.topo ∧ cs'.stats.tips = cs.stats.tips ∧
      lookupK cs'.blocks (ctx.hashOf bl) = some bl ∧
      lookupK cs'.stats.orphans (ctx.hashOf bl) =
        some ⟨ctx.hashOf bl, bl.prevHash, now + 3600⟩ := by
  cases hpb : lookupK cs.blocks bl.prevHash with
  | none =>
    have hrun : AddBlock ctx fuel now cs bl = some (queuedBlockDownloaded (insertBlock
        (setStats {cs with queue := setBlock ⟨0, bl.prevHash, false⟩ false cs.queue}
          {cs.stats with orphans := insertK cs.stats.orphans (ctx.hashOf bl) ⟨ctx.hashOf bl, bl.prevHash, now + 3600⟩})
        bl (ctx.hashOf bl)) (ctx.hashOf bl) bl.height) := by
      simp only [AddBlock, addOrphanBlock, hdup, hpb, horph, Option.isSome_none,
        Bool.false_eq_true, if_false]
    refine ⟨_, hrun, rfl, rfl, rfl, ?_, ?_⟩
    · show lookupK (insertK cs.blocks (ctx.hashOf bl) bl) (ctx.hashOf bl) = some bl
      exact lookupK_insertK_self _ _ _
    · show lookupK (insertK cs.stats.orphans (ctx.hashOf bl)
          ⟨ctx.hashOf bl, bl.prevHash, now + 3600⟩) (ctx.hashOf bl) =
        some ⟨ctx.hashOf bl, bl.prevHash, now + 3600⟩
      exact lookupK_insertK_self _ _ _
  | some prevBl =>
    have hop : (lookupK cs.stats.orphans bl.prevHash).isSome = true := by
      rcases hpar with h | h
      · rw [h] at hpb
        exact absurd hpb (by simp)
      · exact h
    have hrun : AddBlock ctx fuel now cs bl = some (queuedBlockDownloaded (insertBlock
        (setStats cs
          {cs.stats with orphans := insertK cs.stats.orphans (ctx.hashOf bl) ⟨ctx.hashOf bl, bl.prevHash, now + 3600⟩})
        bl (ctx.hashOf bl)) (ctx.hashOf bl) bl.height) := by
      simp only [AddBlock, addOrphanBlock, hdup, hpb, horph, hop, Option.isSome_none,
        Bool.false_eq_true, if_false, if_true]
    refine ⟨_, hrun, rfl, rfl, rfl, ?_, ?_⟩
    · show lookupK (insertK cs.blocks (ctx.hashOf bl) bl) (ctx.hashOf bl) = some bl
      exact lookupK_insertK_self _ _ _
    · show lookupK (insertK cs.stats.orphans (ctx.hashOf bl)
          ⟨ctx.hashOf bl, bl.prevHash, now + 3600⟩) (ctx.hashOf bl) =
        some ⟨ctx.hashOf bl, bl.prevHash, now + 3600⟩
      exact lookupK_insertK_self _ _ _

/-- A concrete block for the C8 witness, with unknown parent hash 9. -/
def blC8 : Block := ⟨0, 1, 0, 0, 0, [], 0, [9], [], 1, 1, []⟩

/-- A concrete empty-chain state for the C8 witness. -/
def csC8 : ChainState := ⟨[], [], [], [], [], [], [], [], [], ⟨0, 0, 0, [], []⟩⟩

/-- A concrete oracle context for the C8 witness, hashing every block to 5. -/
def ctxC8 : Ctx := ⟨id, fun _ => 0, 0, 0, fun _ => 5, fun _ _ => none, fun _ => ⟨[], 0, 0⟩⟩

/-- Witness for C8 at a concrete orphan insertion. -/
theorem addBlock_orphan_frame_witness :
    lookupK csC8.blocks (ctxC8.hashOf blC8) = none ∧
      ∃ cs', AddBlock ctxC8 1 1000 csC8 blC8 = some cs' ∧
        cs'.state = csC8.state ∧ cs'.topo = csC8.topo ∧ cs'.stats.tips = csC8.stats.tips ∧
        lookupK cs'.blocks (ctxC8.hashOf blC8) = some blC8 ∧
        lookupK cs'.stats.orphans (ctxC8.hashOf blC8) =
          some ⟨ctxC8.hashOf blC8, blC8.prevHash, 1000 + 3600⟩ :=
  ⟨rfl, addBlock_orphan_frame ctxC8 1 1000 csC8 blC8 rfl rfl (Or.inl rfl)⟩
